import Mathlib

/-!
Verification of the concurrent-counter programs of the repository
`Multi-Threading-and-Lock-Free-Programming`.

The repository contains four standalone C++ programs:

* `src/raceCondition.cpp` — two threads each run
  `for (int i = 0; i < 1000000; i++) counter++;` on a plain `int counter`
  with no synchronization.  The non-atomic `counter++` is a separate read
  of the shared counter followed by a write of `read value + 1`.
* `src/mutex.cpp` — the same loop, but each iteration acquires a
  `std::lock_guard<std::mutex>` before `counter++` and releases it at the
  end of the iteration's scope.
* `src/atomic.cpp` — the same loop on `std::atomic<int>`, each iteration a
  single indivisible `counter.fetch_add(1, std::memory_order_relaxed)`.
* `src/simpleMultiThreading.cpp` — two threads each print
  `"Thread <id> is running"`; no shared counter.

All four `main` functions spawn two threads, `join` both, and (for the
three counter variants) print `"Final counter value: <counter>"` and
return 0.

We embed the three counter variants as a small-step interleaving
semantics.  A configuration holds the shared counter, the mutex owner and
the state of every worker thread.  A worker is at the loop head
(`Phase.atLoop`), holds a stale read of the counter
(`Phase.hasRead r`, race variant only), or is inside the mutex-protected
critical section before (`Phase.inCrit`) or after (`Phase.didInc`) its
increment.  One step function per source file gives the atomic actions of
that file's `incrementCounter`; a schedule (a list of thread indices)
drives an executable run function, so that concrete interleavings can be
checked by `decide`.
-/

namespace MTLF

/-- The loop bound hard-coded in all three counter variants
(`i < 1000000`). -/
def iterations : Nat := 1000000

/-- Each `main` spawns exactly two worker threads (`t1`, `t2`). -/
def threadCount : Nat := 2

/-- The three protection regimes of the spec: `unsync` is
`raceCondition.cpp` (regime NONE), `mutex` is `mutex.cpp`, `atomic` is
`atomic.cpp`. -/
inductive Regime where
  | unsync
  | mutex
  | atomic
deriving DecidableEq, Repr

/-- Micro-state of one worker thread inside its increment loop. -/
inductive Phase where
  /-- at the loop head, about to start (or done with) an iteration -/
  | atLoop
  /-- race variant: has read the value `reg` from the shared counter and
  has not yet written back `reg + 1` -/
  | hasRead (reg : Nat)
  /-- mutex variant: lock acquired, `counter++` not yet executed -/
  | inCrit
  /-- mutex variant: `counter++` executed, lock not yet released -/
  | didInc
deriving DecidableEq, Repr

/-- One worker thread: its loop iterations still to be finished and its
micro-phase. -/
structure Worker where
  remaining : Nat
  phase : Phase
deriving DecidableEq, Repr

/-- A configuration of a run: the shared `counter` (`int counter = 0;` in
the source, modelled as `Nat` since it only ever holds values in
`[0, threads*iterations]`, see `spec_c10_no_overflow`), the current owner
of `std::mutex mtx` (`none` = unlocked), and the worker threads. -/
structure Cfg where
  counter : Nat
  owner : Option Nat
  workers : List Worker
deriving DecidableEq, Repr

/-- `src/raceCondition.cpp`, `incrementCounter`: the unsynchronized
`counter++` is a read step (`atLoop → hasRead`) followed by a write step
(`hasRead r` writes `r + 1` and finishes the iteration). -/
def stepU (c : Cfg) (i : Nat) : Option Cfg :=
  match c.workers[i]? with
  | some ⟨m + 1, Phase.atLoop⟩ =>
      some { c with workers := c.workers.set i ⟨m + 1, Phase.hasRead c.counter⟩ }
  | some ⟨m + 1, Phase.hasRead r⟩ =>
      some { c with counter := r + 1, workers := c.workers.set i ⟨m, Phase.atLoop⟩ }
  | _ => none

/-- `src/mutex.cpp`, `incrementCounter`: each iteration acquires the lock
(blocks unless `mtx` is free), performs `counter++` while holding it, and
releases it at the end of the `lock_guard` scope. -/
def stepM (c : Cfg) (i : Nat) : Option Cfg :=
  match c.workers[i]?, c.owner with
  | some ⟨m + 1, Phase.atLoop⟩, none =>
      some { c with owner := some i, workers := c.workers.set i ⟨m + 1, Phase.inCrit⟩ }
  | some ⟨m + 1, Phase.inCrit⟩, _ =>
      some { c with counter := c.counter + 1,
                    workers := c.workers.set i ⟨m + 1, Phase.didInc⟩ }
  | some ⟨m + 1, Phase.didInc⟩, _ =>
      some { c with owner := none, workers := c.workers.set i ⟨m, Phase.atLoop⟩ }
  | _, _ => none

/-- `src/atomic.cpp`, `incrementCounter`: each iteration is one
indivisible `counter.fetch_add(1, std::memory_order_relaxed)`. -/
def stepA (c : Cfg) (i : Nat) : Option Cfg :=
  match c.workers[i]? with
  | some ⟨m + 1, Phase.atLoop⟩ =>
      some { c with counter := c.counter + 1, workers := c.workers.set i ⟨m, Phase.atLoop⟩ }
  | _ => none

/-- Dispatch to the step function of the given source file. -/
def stepR : Regime → Cfg → Nat → Option Cfg
  | Regime.unsync => stepU
  | Regime.mutex => stepM
  | Regime.atomic => stepA

/-- One interleaving step: some worker thread performs its next atomic
action. -/
def Step (r : Regime) (c c' : Cfg) : Prop := ∃ i, stepR r c i = some c'

/-- All configurations reachable by interleaving worker steps. -/
def Reach (r : Regime) : Cfg → Cfg → Prop := Relation.ReflTransGen (Step r)

/-- Initial configuration with the counter already holding `c0`, `t`
workers, `n` loop iterations each.  The source programs start from
`c0 = 0` (`int counter = 0;`); the generalisation is used to run one
worker in isolation from an arbitrary counter value. -/
def initFrom (c0 t n : Nat) : Cfg :=
  ⟨c0, none, List.replicate t ⟨n, Phase.atLoop⟩⟩

/-- Initial configuration of a run: counter 0, `t` fresh workers with `n`
iterations each. -/
def init (t n : Nat) : Cfg := initFrom 0 t n

/-- A configuration in which every worker has exhausted its loop: this is
the state `main` observes after `t1.join(); t2.join();`. -/
def Terminal (c : Cfg) : Prop :=
  ∀ w ∈ c.workers, w.remaining = 0 ∧ w.phase = Phase.atLoop

instance (c : Cfg) : Decidable (Terminal c) :=
  List.decidableBAll _ c.workers

/-- Run a concrete schedule (list of thread indices); `none` if some
scheduled thread has no enabled action there. -/
def runSched (r : Regime) : Cfg → List Nat → Option Cfg
  | c, [] => some c
  | c, i :: s =>
      match stepR r c i with
      | some c' => runSched r c' s
      | none => none

theorem runSched_reach {r : Regime} :
    ∀ {s : List Nat} {c c' : Cfg}, runSched r c s = some c' → Reach r c c'
  | [], c, c', h => by
      simp only [runSched, Option.some.injEq] at h
      exact h ▸ Relation.ReflTransGen.refl
  | i :: s, c, c', h => by
      simp only [runSched] at h
      cases hi : stepR r c i with
      | none => rw [hi] at h; exact absurd h (by simp)
      | some c₁ =>
          rw [hi] at h
          exact Relation.ReflTransGen.head ⟨i, hi⟩ (runSched_reach h)

theorem runSched_append {r : Regime} :
    ∀ {s₁ s₂ : List Nat} {c : Cfg},
      runSched r c (s₁ ++ s₂) = (runSched r c s₁).bind (fun c' => runSched r c' s₂)
  | [], _, _ => by simp [runSched]
  | i :: s₁, s₂, c => by
      simp only [List.cons_append, runSched]
      cases stepR r c i with
      | none => simp
      | some c₁ => simpa using runSched_append

/-- Invariance along reachability: a property preserved by every step
holds at every reachable configuration. -/
theorem reach_preserve {r : Regime} {P : Cfg → Prop}
    (hstep : ∀ c c', P c → Step r c c' → P c') {c c' : Cfg}
    (h : Reach r c c') (h0 : P c) : P c' := by
  induction h with
  | refl => exact h0
  | tail _ hst ih => exact hstep _ _ ih hst

/-! ### Helpers about sums over the worker list -/

theorem sum_map_set (f : Worker → Nat) :
    ∀ (l : List Worker) (i : Nat) (w w' : Worker), l[i]? = some w →
      ((l.set i w').map f).sum + f w = (l.map f).sum + f w'
  | [], i, w, w', h => by simp at h
  | x :: xs, 0, w, w', h => by
      simp only [List.getElem?_cons_zero, Option.some.injEq] at h
      subst h
      simp only [List.set_cons_zero, List.map_cons, List.sum_cons]
      omega
  | x :: xs, i + 1, w, w', h => by
      simp only [List.getElem?_cons_succ] at h
      have ih := sum_map_set f xs i w w' h
      simp only [List.set_cons_succ, List.map_cons, List.sum_cons]
      omega

theorem sum_map_le (f : Worker → Nat) (n : Nat) :
    ∀ l : List Worker, (∀ w ∈ l, f w ≤ n) → (l.map f).sum ≤ l.length * n
  | [], _ => by simp
  | x :: xs, h => by
      have ih := sum_map_le f n xs (fun w hw => h w (List.mem_cons_of_mem _ hw))
      have hx := h x (List.mem_cons_self _ _)
      simp only [List.map_cons, List.sum_cons, List.length_cons]
      calc f x + (xs.map f).sum ≤ n + xs.length * n := Nat.add_le_add hx ih
        _ = (xs.length + 1) * n := by ring

theorem sum_map_eq_mul (f : Worker → Nat) (n : Nat) :
    ∀ l : List Worker, (∀ w ∈ l, f w = n) → (l.map f).sum = l.length * n
  | [], _ => by simp
  | x :: xs, h => by
      have ih := sum_map_eq_mul f n xs (fun w hw => h w (List.mem_cons_of_mem _ hw))
      have hx := h x (List.mem_cons_self _ _)
      simp only [List.map_cons, List.sum_cons, List.length_cons, hx, ih]
      ring

theorem sum_replicate_nat (t n : Nat) : (List.replicate t n).sum = t * n := by
  induction t with
  | zero => simp
  | succ t ih => simp [List.replicate_succ, ih]; ring

/-! ### Counting invariants

For the `atomic` regime the counter always equals the initial value plus
the number of loop iterations already finished; for `mutex` likewise,
counting an un-released increment (`Phase.didInc`) as finished.  For the
race variant the counter is merely bounded by the number of finished
iterations, and each stale read is bounded the same way. -/

/-- Iterations the worker still has to finish. -/
def remainingOf (w : Worker) : Nat := w.remaining

/-- Sum of the remaining iteration counts of all workers. -/
def sumRem (c : Cfg) : Nat := (c.workers.map remainingOf).sum

/-- Iterations a mutex worker still has to add to the counter: a worker in
`Phase.didInc` has already added its current iteration. -/
def credit (w : Worker) : Nat :=
  match w.phase with
  | Phase.didInc => w.remaining - 1
  | _ => w.remaining

/-- Sum of the outstanding increments of all mutex workers. -/
def sumCredit (c : Cfg) : Nat := (c.workers.map credit).sum

/-- Iterations the worker has finished, out of `n`. -/
def doneOf (n : Nat) (w : Worker) : Nat := n - w.remaining

/-- Total number of write-backs performed so far in a race-variant run
where every worker started with `n` iterations. -/
def sumDone (n : Nat) (c : Cfg) : Nat := (c.workers.map (doneOf n)).sum

/-- Exact counting invariant of the atomic variant. -/
def AInv (c0 t n : Nat) (c : Cfg) : Prop :=
  c.counter + sumRem c = c0 + t * n

theorem AInv_init (c0 t n : Nat) : AInv c0 t n (initFrom c0 t n) := by
  simp only [AInv, initFrom, sumRem, List.map_replicate]
  simp [remainingOf, sum_replicate_nat]

theorem AInv_step {c0 t n : Nat} {c c' : Cfg} (h : AInv c0 t n c)
    (hs : Step Regime.atomic c c') : AInv c0 t n c' := by
  obtain ⟨i, hi⟩ := hs
  simp only [stepR, stepA] at hi
  split at hi
  next m hw =>
    injection hi with hi
    subst hi
    have hsum :=
      sum_map_set remainingOf c.workers i ⟨m + 1, Phase.atLoop⟩ ⟨m, Phase.atLoop⟩ hw
    simp only [AInv, sumRem] at h ⊢
    simp only [remainingOf] at hsum ⊢
    omega
  next => exact absurd hi (by simp)

/-- Reading an index of `l.set i w'` yields either the overwritten entry
or an untouched one. -/
theorem getElem?_set_cases {l : List Worker} {i j : Nat} {w w' x : Worker}
    (hw : l[i]? = some w) (hj : (l.set i w')[j]? = some x) :
    (j = i ∧ x = w') ∨ (j ≠ i ∧ l[j]? = some x) := by
  by_cases hji : j = i
  · subst hji
    obtain ⟨hlt, -⟩ := List.getElem?_eq_some_iff.mp hw
    rw [List.getElem?_set_self hlt] at hj
    exact Or.inl ⟨rfl, (Option.some.injEq _ _).mp hj.symm⟩
  · rw [List.getElem?_set_ne (fun h => hji h.symm)] at hj
    exact Or.inr ⟨hji, hj⟩

/-- Invariant of the mutex variant: exact counting, and the lock discipline
(a worker is inside the critical section iff it owns `mtx`). -/
def MInv (c0 t n : Nat) (c : Cfg) : Prop :=
  (c.counter + sumCredit c = c0 + t * n) ∧
  (∀ i w, c.workers[i]? = some w →
      (w.phase = Phase.inCrit ∨ w.phase = Phase.didInc) → c.owner = some i) ∧
  (∀ i, c.owner = some i →
      ∃ w, c.workers[i]? = some w ∧ (w.phase = Phase.inCrit ∨ w.phase = Phase.didInc))

theorem MInv_init (c0 t n : Nat) : MInv c0 t n (initFrom c0 t n) := by
  refine ⟨?_, ?_, ?_⟩
  · simp only [initFrom, sumCredit, List.map_replicate]
    simp [credit, sum_replicate_nat]
  · intro i w hw hph
    have := List.getElem?_mem hw
    rw [List.eq_of_mem_replicate this] at hph
    rcases hph with h | h <;> exact absurd h (by simp)
  · intro i h
    exact absurd h (by simp [initFrom])

theorem MInv_step {c0 t n : Nat} {c c' : Cfg} (h : MInv c0 t n c)
    (hs : Step Regime.mutex c c') : MInv c0 t n c' := by
  obtain ⟨hcnt, hown, hfull⟩ := h
  obtain ⟨i, hi⟩ := hs
  simp only [stepR, stepM] at hi
  split at hi
  -- acquire: `mtx` free, worker at loop head with iterations left
  next m hw hO =>
    injection hi with hi
    subst hi
    have hsum :=
      sum_map_set credit c.workers i ⟨m + 1, Phase.atLoop⟩ ⟨m + 1, Phase.inCrit⟩ hw
    refine ⟨?_, ?_, ?_⟩
    · simp only [sumCredit] at hcnt ⊢
      simp only [credit] at hsum
      omega
    · intro j x hj hph
      rcases getElem?_set_cases hw hj with ⟨hji, -⟩ | ⟨hji, hjold⟩
      · subst hji; rfl
      · exact absurd (hown j x hjold hph) (by simp [hO])
    · intro j hj
      injection hj with hj
      subst hj
      obtain ⟨hlt, -⟩ := List.getElem?_eq_some_iff.mp hw
      exact ⟨⟨m + 1, Phase.inCrit⟩, List.getElem?_set_self hlt, Or.inl rfl⟩
  -- increment: `counter++` while holding the lock
  next m hw =>
    injection hi with hi
    subst hi
    have hoi : c.owner = some i := hown i _ hw (Or.inl rfl)
    have hsum :=
      sum_map_set credit c.workers i ⟨m + 1, Phase.inCrit⟩ ⟨m + 1, Phase.didInc⟩ hw
    refine ⟨?_, ?_, ?_⟩
    · simp only [sumCredit] at hcnt ⊢
      simp only [credit] at hsum
      omega
    · intro j x hj hph
      rcases getElem?_set_cases hw hj with ⟨hji, -⟩ | ⟨hji, hjold⟩
      · subst hji; exact hoi
      · exact hown j x hjold hph
    · intro j hj
      have hji : j = i := by
        rw [hoi] at hj; exact (Option.some.injEq _ _).mp hj.symm
      subst hji
      obtain ⟨hlt, -⟩ := List.getElem?_eq_some_iff.mp hw
      exact ⟨⟨m + 1, Phase.didInc⟩, List.getElem?_set_self hlt, Or.inr rfl⟩
  -- release: end of the `lock_guard` scope, iteration finished
  next m hw =>
    injection hi with hi
    subst hi
    have hoi : c.owner = some i := hown i _ hw (Or.inr rfl)
    have hsum :=
      sum_map_set credit c.workers i ⟨m + 1, Phase.didInc⟩ ⟨m, Phase.atLoop⟩ hw
    refine ⟨?_, ?_, ?_⟩
    · simp only [sumCredit] at hcnt ⊢
      simp only [credit] at hsum
      omega
    · intro j x hj hph
      rcases getElem?_set_cases hw hj with ⟨hji, hx⟩ | ⟨hji, hjold⟩
      · subst hx
        rcases hph with h | h <;> exact absurd h (by simp)
      · have := hown j x hjold hph
        rw [hoi] at this
        exact absurd ((Option.some.injEq _ _).mp this.symm) hji
    · intro j hj
      exact absurd hj (by simp)
  next => exact absurd hi (by simp)

/-- Invariant of the race variant started from `init t n`: the counter
never exceeds the number of write-backs performed so far, every stale read
is bounded the same way, and once a write-back happened the counter stays
positive.  (The counter is NOT monotone here: a stale write can lower it,
see `spec_c4_counterexample`.) -/
def UInv (n : Nat) (c : Cfg) : Prop :=
  (∀ w ∈ c.workers, w.remaining ≤ n) ∧
  c.counter ≤ sumDone n c ∧
  (∀ w ∈ c.workers, ∀ r, w.phase = Phase.hasRead r → r ≤ sumDone n c) ∧
  (1 ≤ sumDone n c → 1 ≤ c.counter)

theorem UInv_init (t n : Nat) : UInv n (init t n) := by
  refine ⟨?_, ?_, ?_, ?_⟩
  · intro w hw
    rw [List.eq_of_mem_replicate hw]
  · simp [init, initFrom, sumDone]
  · intro w hw r hr
    rw [List.eq_of_mem_replicate hw] at hr
    exact absurd hr (by simp)
  · intro h
    simp only [init, initFrom, sumDone, List.map_replicate, doneOf] at h
    simp only [Nat.sub_self] at h
    rw [sum_replicate_nat] at h
    omega

theorem UInv_step {n : Nat} {c c' : Cfg} (h : UInv n c)
    (hs : Step Regime.unsync c c') : UInv n c' := by
  obtain ⟨hrem, hcnt, hreads, hpos⟩ := h
  have hcnt' : c.counter ≤ (c.workers.map (doneOf n)).sum := hcnt
  obtain ⟨i, hi⟩ := hs
  simp only [stepR, stepU] at hi
  split at hi
  -- read: the worker copies the shared counter into its register
  next m hw =>
    injection hi with hi
    subst hi
    have hsum : ((c.workers.set i ⟨m + 1, Phase.hasRead c.counter⟩).map (doneOf n)).sum
          + (n - (m + 1)) = (c.workers.map (doneOf n)).sum + (n - (m + 1)) :=
      sum_map_set (doneOf n) c.workers i ⟨m + 1, Phase.atLoop⟩
        ⟨m + 1, Phase.hasRead c.counter⟩ hw
    refine ⟨?_, ?_, ?_, ?_⟩
    · intro w hwmem
      rcases List.mem_or_eq_of_mem_set hwmem with hmem | rfl
      · exact hrem w hmem
      · show m + 1 ≤ n
        exact hrem _ (List.getElem?_mem hw)
    · show c.counter ≤ ((c.workers.set i ⟨m + 1, Phase.hasRead c.counter⟩).map (doneOf n)).sum
      omega
    · intro w hwmem r hr
      show r ≤ ((c.workers.set i ⟨m + 1, Phase.hasRead c.counter⟩).map (doneOf n)).sum
      rcases List.mem_or_eq_of_mem_set hwmem with hmem | rfl
      · have h2 : r ≤ (c.workers.map (doneOf n)).sum := hreads w hmem r hr
        omega
      · injection hr with hr
        subst hr
        omega
    · intro hw1
      have hw1' : 1 ≤ ((c.workers.set i ⟨m + 1, Phase.hasRead c.counter⟩).map
          (doneOf n)).sum := hw1
      show 1 ≤ c.counter
      exact hpos (show 1 ≤ (c.workers.map (doneOf n)).sum by omega)
  -- write: the worker stores `register + 1`, finishing the iteration
  next m r hw =>
    injection hi with hi
    subst hi
    have hmem := List.getElem?_mem hw
    have hmle : m + 1 ≤ n := hrem _ hmem
    have hrle : r ≤ (c.workers.map (doneOf n)).sum := hreads _ hmem r rfl
    have hsum : ((c.workers.set i ⟨m, Phase.atLoop⟩).map (doneOf n)).sum + (n - (m + 1))
          = (c.workers.map (doneOf n)).sum + (n - m) :=
      sum_map_set (doneOf n) c.workers i ⟨m + 1, Phase.hasRead r⟩ ⟨m, Phase.atLoop⟩ hw
    refine ⟨?_, ?_, ?_, ?_⟩
    · intro w hwmem
      rcases List.mem_or_eq_of_mem_set hwmem with hmem' | rfl
      · exact hrem w hmem'
      · show m ≤ n
        omega
    · show r + 1 ≤ ((c.workers.set i ⟨m, Phase.atLoop⟩).map (doneOf n)).sum
      omega
    · intro w hwmem r' hr'
      show r' ≤ ((c.workers.set i ⟨m, Phase.atLoop⟩).map (doneOf n)).sum
      rcases List.mem_or_eq_of_mem_set hwmem with hmem' | rfl
      · have h2 : r' ≤ (c.workers.map (doneOf n)).sum := hreads w hmem' r' hr'
        omega
      · exact absurd hr' (by simp)
    · intro _
      show 1 ≤ r + 1
      omega
  next => exact absurd hi (by simp)

/-- Exact invariant of a single race-variant worker running with no
interference, started from counter value `c0`: its register always agrees
with the counter, so no update is ever lost. -/
def USInv (c0 n : Nat) (c : Cfg) : Prop :=
  ∃ w, c.workers = [w] ∧ w.remaining ≤ n ∧
    ((w.phase = Phase.atLoop ∧ c.counter = c0 + (n - w.remaining)) ∨
     (∃ r, w.phase = Phase.hasRead r ∧ r = c.counter ∧
        c.counter = c0 + (n - w.remaining) ∧ 1 ≤ w.remaining))

theorem USInv_init (c0 n : Nat) : USInv c0 n (initFrom c0 1 n) := by
  exact ⟨⟨n, Phase.atLoop⟩, by simp [initFrom], le_refl n, Or.inl ⟨rfl, by simp [initFrom]⟩⟩

theorem USInv_step {c0 n : Nat} {c c' : Cfg} (h : USInv c0 n c)
    (hs : Step Regime.unsync c c') : USInv c0 n c' := by
  obtain ⟨w, hws, hwle, hph⟩ := h
  obtain ⟨i, hi⟩ := hs
  simp only [stepR, stepU] at hi
  have hi0 : ∀ x, c.workers[i]? = some x → i = 0 ∧ x = w := by
    intro x hx
    rw [hws] at hx
    cases i with
    | zero =>
        simp only [List.getElem?_cons_zero, Option.some.injEq] at hx
        exact ⟨rfl, hx.symm⟩
    | succ k => simp at hx
  split at hi
  next m hw =>
    obtain ⟨hieq, hweq⟩ := hi0 _ hw
    subst hieq
    subst hweq
    injection hi with hi
    subst hi
    rcases hph with ⟨-, hcount⟩ | ⟨r, hphase, -, -, -⟩
    · have hwle' : m + 1 ≤ n := hwle
      have hcount' : c.counter = c0 + (n - (m + 1)) := hcount
      refine ⟨⟨m + 1, Phase.hasRead c.counter⟩, by simp [hws], hwle', ?_⟩
      exact Or.inr ⟨c.counter, rfl, rfl, hcount', show 1 ≤ m + 1 by omega⟩
    · exact absurd hphase (by simp)
  next m r hw =>
    obtain ⟨hieq, hweq⟩ := hi0 _ hw
    subst hieq
    subst hweq
    injection hi with hi
    subst hi
    rcases hph with ⟨hphase, -⟩ | ⟨r', hphase, hreg, hcount, -⟩
    · exact absurd hphase (by simp)
    · have hphase' : Phase.hasRead r = Phase.hasRead r' := hphase
      injection hphase' with hrr
      subst hrr
      have hwle' : m + 1 ≤ n := hwle
      have hcount' : c.counter = c0 + (n - (m + 1)) := hcount
      have hreg' : r = c.counter := hreg
      refine ⟨⟨m, Phase.atLoop⟩, by simp [hws], show m ≤ n by omega,
        Or.inl ⟨rfl, show r + 1 = c0 + (n - m) by omega⟩⟩
  next => exact absurd hi (by simp)

/-! ### Consequences at reachable and terminal configurations -/

theorem step_length {r : Regime} {c c' : Cfg} (hs : Step r c c') :
    c'.workers.length = c.workers.length := by
  obtain ⟨i, hi⟩ := hs
  cases r <;> simp only [stepR, stepU, stepM, stepA] at hi <;>
    (split at hi <;> first
      | (injection hi with hi; subst hi; simp)
      | exact absurd hi (by simp))

theorem reach_length {r : Regime} {c c' : Cfg} (h : Reach r c c') :
    c'.workers.length = c.workers.length := by
  induction h with
  | refl => rfl
  | tail _ hst ih => rw [step_length hst, ih]

theorem AInv_reach {c0 t n : Nat} {c : Cfg}
    (h : Reach Regime.atomic (initFrom c0 t n) c) : AInv c0 t n c :=
  reach_preserve (fun _ _ hp hs => AInv_step hp hs) h (AInv_init c0 t n)

theorem MInv_reach {c0 t n : Nat} {c : Cfg}
    (h : Reach Regime.mutex (initFrom c0 t n) c) : MInv c0 t n c :=
  reach_preserve (fun _ _ hp hs => MInv_step hp hs) h (MInv_init c0 t n)

theorem UInv_reach {t n : Nat} {c : Cfg}
    (h : Reach Regime.unsync (init t n) c) : UInv n c :=
  reach_preserve (fun _ _ hp hs => UInv_step hp hs) h (UInv_init t n)

theorem USInv_reach {c0 n : Nat} {c : Cfg}
    (h : Reach Regime.unsync (initFrom c0 1 n) c) : USInv c0 n c :=
  reach_preserve (fun _ _ hp hs => USInv_step hp hs) h (USInv_init c0 n)

theorem terminal_sumRem {c : Cfg} (h : Terminal c) : sumRem c = 0 := by
  apply List.sum_eq_zero
  intro x hx
  obtain ⟨w, hw, rfl⟩ := List.mem_map.mp hx
  simp [remainingOf, (h w hw).1]

theorem terminal_sumCredit {c : Cfg} (h : Terminal c) : sumCredit c = 0 := by
  apply List.sum_eq_zero
  intro x hx
  obtain ⟨w, hw, rfl⟩ := List.mem_map.mp hx
  obtain ⟨h0, hph⟩ := h w hw
  simp [credit, hph, h0]

theorem terminal_sumDone {n : Nat} {c : Cfg} (h : Terminal c) :
    sumDone n c = c.workers.length * n := by
  apply sum_map_eq_mul
  intro w hw
  simp [doneOf, (h w hw).1]

/-- Exact final value for the mutex variant, from any starting counter. -/
theorem mutex_terminal_counter {c0 t n : Nat} {c : Cfg}
    (h : Reach Regime.mutex (initFrom c0 t n) c) (hterm : Terminal c) :
    c.counter = c0 + t * n := by
  have hinv := (MInv_reach h).1
  rw [terminal_sumCredit hterm] at hinv
  omega

/-- Exact final value for the atomic variant, from any starting counter. -/
theorem atomic_terminal_counter {c0 t n : Nat} {c : Cfg}
    (h : Reach Regime.atomic (initFrom c0 t n) c) (hterm : Terminal c) :
    c.counter = c0 + t * n := by
  have hinv := AInv_reach h
  rw [AInv, terminal_sumRem hterm] at hinv
  omega

/-- In every regime the counter never exceeds `t * n` at any reachable
configuration of a run started from `init t n`. -/
theorem counter_le_reach {t n : Nat} {c : Cfg} (r : Regime)
    (h : Reach r (init t n) c) : c.counter ≤ t * n := by
  cases r with
  | unsync =>
      obtain ⟨-, hcnt, -, -⟩ := UInv_reach h
      have hlen : c.workers.length = t := by
        have := reach_length h
        simpa [init, initFrom] using this
      have hbound : sumDone n c ≤ c.workers.length * n :=
        sum_map_le (doneOf n) n c.workers (fun w _ => Nat.sub_le n w.remaining)
      rw [hlen] at hbound
      omega
  | mutex =>
      have hinv : c.counter + sumCredit c = 0 + t * n := (MInv_reach h).1
      omega
  | atomic =>
      have hinv : c.counter + sumRem c = 0 + t * n := AInv_reach h
      omega

/-- Every step of the mutex or atomic variant leaves the counter unchanged
or increments it; only the race variant can write a stale (smaller)
value. -/
theorem step_mono {r : Regime} (hr : r ≠ Regime.unsync) {c c' : Cfg}
    (hs : Step r c c') : c.counter ≤ c'.counter := by
  obtain ⟨i, hi⟩ := hs
  cases r with
  | unsync => exact absurd rfl hr
  | mutex =>
      simp only [stepR, stepM] at hi
      split at hi <;> first
        | (injection hi with hi; subst hi; simp)
        | exact absurd hi (by simp)
  | atomic =>
      simp only [stepR, stepA] at hi
      split at hi <;> first
        | (injection hi with hi; subst hi; simp)
        | exact absurd hi (by simp)

/-! ### A single worker, scheduled sequentially, runs to completion -/

/-- Number of atomic actions one loop iteration takes in each variant. -/
def chunk : Regime → Nat
  | Regime.unsync => 2
  | Regime.mutex => 3
  | Regime.atomic => 1

/-- Schedule that lets worker 0 alone run its whole loop. -/
def soloSched (r : Regime) (n : Nat) : List Nat := List.replicate (chunk r * n) 0

theorem iter_solo (r : Regime) (k m : Nat) :
    runSched r ⟨k, none, [⟨m + 1, Phase.atLoop⟩]⟩ (List.replicate (chunk r) 0)
      = some ⟨k + 1, none, [⟨m, Phase.atLoop⟩]⟩ := by
  cases r <;> rfl

theorem solo_run (r : Regime) :
    ∀ n k, runSched r ⟨k, none, [⟨n, Phase.atLoop⟩]⟩ (soloSched r n)
      = some ⟨k + n, none, [⟨0, Phase.atLoop⟩]⟩ := by
  intro n
  induction n with
  | zero => intro k; simp [soloSched, runSched]
  | succ n ih =>
      intro k
      have hrep : soloSched r (n + 1)
          = List.replicate (chunk r) 0 ++ soloSched r n := by
        simp only [soloSched, Nat.mul_succ, Nat.mul_add, Nat.mul_one]
        rw [Nat.add_comm, List.replicate_add]
      rw [hrep, runSched_append, iter_solo, Option.some_bind, ih (k + 1)]
      have hk : k + 1 + n = k + (n + 1) := by omega
      rw [hk]

/-- The configuration in which a lone worker finishes is terminal. -/
theorem solo_terminal (v : Nat) : Terminal ⟨v, none, [⟨0, Phase.atLoop⟩]⟩ := by
  intro w hw
  simp only [List.mem_singleton] at hw
  subst hw
  exact ⟨rfl, rfl⟩

/-! ### The `main` functions of the three counter variants

Each `main` spawns the workers, joins both (so it resumes only in a
terminal configuration), prints one line
`"Final counter value: " << counter << std::endl` and returns 0. -/

/-- The single line each counter variant's `main` writes to stdout. -/
def finalReport (v : Nat) : String := "Final counter value: " ++ toString v

/-- Whole-program behaviour of one counter variant under a given worker
schedule: `some (stdout lines, exit code)` once every worker has been
joined, `none` while the run is still in progress (or the schedule is
infeasible). -/
def programExec (r : Regime) (t n : Nat) (s : List Nat) : Option (List String × Nat) :=
  match runSched r (init t n) s with
  | some c => if Terminal c then some ([finalReport c.counter], 0) else none
  | none => none

/-! ### `src/simpleMultiThreading.cpp`

`printMessage(id)` executes
`std::cout << "Thread " << id << " is running\n";`, which is three
separate `operator<<` calls on the shared `std::cout`.  C++ only keeps
concurrent stream insertions free of data races; it does not make the
three calls one atomic unit, so insertions of the other thread may land
between them and mangle the lines.  We therefore model the demo at the
granularity of individual insertions: each thread appends its next
fragment to the shared character stream as one atomic action. -/

/-- The three fragments `printMessage(id)` inserts into `std::cout`, in
order, one `operator<<` call each. -/
def msgFrags (id : Nat) : List String := ["Thread ", toString id, " is running\n"]

/-- The output `printMessage(id)` contributes when its three insertions
are not interleaved with the other thread's: the well-formed line
`"Thread <id> is running"` with its terminator. -/
def printMessage (id : Nat) : String := "Thread " ++ toString id ++ " is running\n"

/-- Number of line terminators a fragment carries. -/
def newlineCount (s : String) : Nat := s.data.count (Char.ofNat 10)

/-- Atomic actions of the thread-creation demo: one of the two spawned
threads performs its next `operator<<` call, or `main` completes one of
its two `join` calls. -/
inductive SAct where
  | run1
  | run2
  | joinStep
deriving DecidableEq, Repr

/-- Configuration of `simpleMultiThreading.cpp`: how many of its three
insertions each spawned thread has performed (3 = thread terminated), how
many `join` calls `main` has completed (`mainPC = 2` means control
proceeded past `t2.join()`), and the fragments on the stdout stream so
far, in stream order. -/
structure SimpleCfg where
  t1pc : Nat
  t2pc : Nat
  mainPC : Nat
  output : List String
deriving DecidableEq, Repr

/-- Start state: both threads spawned with no output yet, `main` blocked
at `t1.join()`, empty stream. -/
def simpleInit : SimpleCfg := ⟨0, 0, 0, []⟩

def simpleStep (c : SimpleCfg) (a : SAct) : Option SimpleCfg :=
  match a with
  | SAct.run1 =>
      match (msgFrags 1)[c.t1pc]? with
      | some f => some { c with t1pc := c.t1pc + 1, output := c.output ++ [f] }
      | none => none
  | SAct.run2 =>
      match (msgFrags 2)[c.t2pc]? with
      | some f => some { c with t2pc := c.t2pc + 1, output := c.output ++ [f] }
      | none => none
  | SAct.joinStep =>
      match c.mainPC with
      | 0 => if c.t1pc = 3 then some { c with mainPC := 1 } else none
      | 1 => if c.t2pc = 3 then some { c with mainPC := 2 } else none
      | _ => none

def SStep (c c' : SimpleCfg) : Prop := ∃ a, simpleStep c a = some c'

def SReach : SimpleCfg → SimpleCfg → Prop := Relation.ReflTransGen SStep

def runSimple : SimpleCfg → List SAct → Option SimpleCfg
  | c, [] => some c
  | c, a :: s =>
      match simpleStep c a with
      | some c' => runSimple c' s
      | none => none

theorem runSimple_sreach :
    ∀ {s : List SAct} {c c' : SimpleCfg}, runSimple c s = some c' → SReach c c'
  | [], c, c', h => by
      simp only [runSimple, Option.some.injEq] at h
      exact h ▸ Relation.ReflTransGen.refl
  | a :: s, c, c', h => by
      simp only [runSimple] at h
      cases ha : simpleStep c a with
      | none => rw [ha] at h; exact absurd h (by simp)
      | some c₁ =>
          rw [ha] at h
          exact Relation.ReflTransGen.head ⟨a, ha⟩ (runSimple_sreach h)

/-- `Interleave xs ys zs`: `zs` is an order-preserving shuffle of `xs`
and `ys` — what a shared stream can hold after two threads pushed the
fragment sequences `xs` and `ys` concurrently. -/
inductive Interleave : List String → List String → List String → Prop where
  | nil : Interleave [] [] []
  | left {x : String} {xs ys zs : List String} :
      Interleave xs ys zs → Interleave (x :: xs) ys (x :: zs)
  | right {y : String} {xs ys zs : List String} :
      Interleave xs ys zs → Interleave xs (y :: ys) (y :: zs)

theorem Interleave.snoc_left {a : String} :
    ∀ {xs ys zs : List String}, Interleave xs ys zs →
      Interleave (xs ++ [a]) ys (zs ++ [a])
  | _, _, _, Interleave.nil => Interleave.left Interleave.nil
  | _, _, _, Interleave.left h => Interleave.left h.snoc_left
  | _, _, _, Interleave.right h => Interleave.right h.snoc_left

theorem Interleave.snoc_right {a : String} :
    ∀ {xs ys zs : List String}, Interleave xs ys zs →
      Interleave xs (ys ++ [a]) (zs ++ [a])
  | _, _, _, Interleave.nil => Interleave.right Interleave.nil
  | _, _, _, Interleave.left h => Interleave.left h.snoc_right
  | _, _, _, Interleave.right h => Interleave.right h.snoc_right

/-- An interleaved stream carries exactly the fragments of both inputs:
any additive fragment statistic splits. -/
theorem Interleave.map_sum (f : String → Nat) {xs ys zs : List String}
    (h : Interleave xs ys zs) :
    (zs.map f).sum = (xs.map f).sum + (ys.map f).sum := by
  induction h with
  | nil => simp
  | left h ih =>
      simp only [List.map_cons, List.sum_cons, ih]
      omega
  | right h ih =>
      simp only [List.map_cons, List.sum_cons, ih]
      omega

/-- Invariant of the thread-creation demo: `main` passes `t1.join()` only
after thread 1 has terminated and `t2.join()` only after thread 2 has,
and the stream is an order-preserving interleaving of the fragments each
thread has inserted so far. -/
def SimpleInv (c : SimpleCfg) : Prop :=
  c.t1pc ≤ 3 ∧ c.t2pc ≤ 3 ∧ c.mainPC ≤ 2 ∧
  (1 ≤ c.mainPC → c.t1pc = 3) ∧ (2 ≤ c.mainPC → c.t2pc = 3) ∧
  Interleave ((msgFrags 1).take c.t1pc) ((msgFrags 2).take c.t2pc) c.output

theorem SimpleInv_init : SimpleInv simpleInit := by
  refine ⟨by simp [simpleInit], by simp [simpleInit], by simp [simpleInit],
    ?_, ?_, ?_⟩
  · intro h
    exact absurd h (by simp [simpleInit])
  · intro h
    exact absurd h (by simp [simpleInit])
  · exact Interleave.nil

theorem SimpleInv_step {c c' : SimpleCfg} (h : SimpleInv c) (hs : SStep c c') :
    SimpleInv c' := by
  obtain ⟨h1, h2, hpc, hg1, hg2, hint⟩ := h
  obtain ⟨a, ha⟩ := hs
  cases a with
  | run1 =>
      simp only [simpleStep] at ha
      split at ha
      next f hf =>
        injection ha with ha
        subst ha
        have hlt : c.t1pc < 3 := by
          have hl := (List.getElem?_eq_some_iff.mp hf).1
          simpa [msgFrags] using hl
        refine ⟨show c.t1pc + 1 ≤ 3 by omega, h2, hpc, ?_, hg2, ?_⟩
        · intro hm
          exact absurd (hg1 hm) (by omega)
        · show Interleave ((msgFrags 1).take (c.t1pc + 1))
            ((msgFrags 2).take c.t2pc) (c.output ++ [f])
          rw [List.take_succ, hf]
          exact hint.snoc_left
      next => exact absurd ha (by simp)
  | run2 =>
      simp only [simpleStep] at ha
      split at ha
      next f hf =>
        injection ha with ha
        subst ha
        have hlt : c.t2pc < 3 := by
          have hl := (List.getElem?_eq_some_iff.mp hf).1
          simpa [msgFrags] using hl
        refine ⟨h1, show c.t2pc + 1 ≤ 3 by omega, hpc, hg1, ?_, ?_⟩
        · intro hm
          exact absurd (hg2 hm) (by omega)
        · show Interleave ((msgFrags 1).take c.t1pc)
            ((msgFrags 2).take (c.t2pc + 1)) (c.output ++ [f])
          rw [List.take_succ, hf]
          exact hint.snoc_right
      next => exact absurd ha (by simp)
  | joinStep =>
      simp only [simpleStep] at ha
      split at ha
      next hm0 =>
        split at ha
        next ht1 =>
          injection ha with ha
          subst ha
          refine ⟨h1, h2, show (1:Nat) ≤ 2 by omega, fun _ => ht1, ?_, hint⟩
          intro hm
          exact absurd (show (2:Nat) ≤ 1 from hm) (by omega)
        next => exact absurd ha (by simp)
      next hm1 =>
        split at ha
        next ht2 =>
          injection ha with ha
          subst ha
          exact ⟨h1, h2, show (2:Nat) ≤ 2 by omega, fun _ => hg1 (by omega),
            fun _ => ht2, hint⟩
        next => exact absurd ha (by simp)
      next => exact absurd ha (by simp)

theorem SimpleInv_reach {c : SimpleCfg} (h : SReach simpleInit c) : SimpleInv c := by
  induction h with
  | refl => exact SimpleInv_init
  | tail _ hst ih => exact SimpleInv_step ih hst

/-- A worker is inside the mutex-protected increment body
(between acquiring and releasing `mtx`). -/
def inCritSec (w : Worker) : Prop :=
  w.phase = Phase.inCrit ∨ w.phase = Phase.didInc

/-- Unpack a completed whole-program run: it ends in a joined (terminal)
reachable worker configuration whose counter is the reported integer, and
the exit code is 0. -/
theorem programExec_some {r : Regime} {t n : Nat} {s : List Nat}
    {p : List String × Nat} (h : programExec r t n s = some p) :
    ∃ c, Reach r (init t n) c ∧ Terminal c ∧ p = ([finalReport c.counter], 0) := by
  simp only [programExec] at h
  split at h
  next c hr =>
    split at h
    next ht =>
      injection h with h
      exact ⟨c, runSched_reach hr, ht, h.symm⟩
    next => exact absurd h (by simp)
  next => exact absurd h (by simp)

/-! ## The claims -/

/-- C1: for every `threads = t ≥ 1` and `iterations_per_thread = n ≥ 0`,
every complete run (any interleaving) of the MUTEX regime and of the
ATOMIC regime ends with the counter exactly `t * n` — in particular the
final value is the same on every run, deterministically (for the reference
constants `t = 2`, `n = 1000000`, exactly `2000000`). -/
theorem spec_c1_exact_final_value (t n : Nat) (ht : 1 ≤ t) (cm ca : Cfg)
    (hm : Reach Regime.mutex (init t n) cm) (hmt : Terminal cm)
    (ha : Reach Regime.atomic (init t n) ca) (hat : Terminal ca) :
    cm.counter = t * n ∧ ca.counter = t * n := by
  have h1 := mutex_terminal_counter hm hmt
  have h2 := atomic_terminal_counter ha hat
  omega

/-- Witness for C1 at `t = 2`, `n = 1`: a concrete complete mutex run
(schedule `[0,0,0,1,1,1]`) and a concrete complete atomic run
(schedule `[0,1]`), both ending with counter `2 * 1`. -/
theorem spec_c1_witness :
    (Cfg.mk 2 none [⟨0, Phase.atLoop⟩, ⟨0, Phase.atLoop⟩]).counter = 2 * 1 ∧
    (Cfg.mk 2 none [⟨0, Phase.atLoop⟩, ⟨0, Phase.atLoop⟩]).counter = 2 * 1 :=
  spec_c1_exact_final_value 2 1 (by decide) _ _
    (runSched_reach (s := [0, 0, 0, 1, 1, 1]) (by decide)) (by decide)
    (runSched_reach (s := [0, 1]) (by decide)) (by decide)

/-- C2 counterexample: the claim says every complete unsynchronized run
satisfies `n ≤ final`.  With `t = 2`, `n = 3`, the interleaving in which
worker 0 reads 0, worker 1 completes two iterations, worker 0 writes back
its stale 1, worker 1 reads 1, worker 0 finishes (counter 3), and worker 1
finally writes back its stale 2, is a complete run with final counter
`2 < 3 = n`: lost updates can drive the final value below one thread's
worth of increments. -/
theorem spec_c2_counterexample :
    runSched Regime.unsync (init 2 3) [0, 1, 1, 1, 1, 0, 1, 0, 0, 0, 0, 1]
      = some (Cfg.mk 2 none [⟨0, Phase.atLoop⟩, ⟨0, Phase.atLoop⟩]) ∧
    Reach Regime.unsync (init 2 3) (Cfg.mk 2 none [⟨0, Phase.atLoop⟩, ⟨0, Phase.atLoop⟩]) ∧
    Terminal (Cfg.mk 2 none [⟨0, Phase.atLoop⟩, ⟨0, Phase.atLoop⟩]) ∧
    ¬ 3 ≤ (Cfg.mk 2 none [⟨0, Phase.atLoop⟩, ⟨0, Phase.atLoop⟩]).counter :=
  ⟨by decide, runSched_reach (s := [0, 1, 1, 1, 1, 0, 1, 0, 0, 0, 0, 1]) (by decide),
    by decide, by decide⟩

/-- C2 amended: every complete unsynchronized run satisfies
`final ≤ t * n`; moreover `1 ≤ final` whenever `t ≥ 1` and `n ≥ 1`, and
`final = 0` when `n = 0`.  (The spec's lower bound `n` does not hold: a
stale write-back can lose all but a couple of increments, see
`spec_c2_counterexample`.) -/
theorem spec_c2_amended_bounds (t n : Nat) (c : Cfg)
    (h : Reach Regime.unsync (init t n) c) (hterm : Terminal c) :
    c.counter ≤ t * n ∧ (1 ≤ t → 1 ≤ n → 1 ≤ c.counter) ∧
    (n = 0 → c.counter = 0) := by
  obtain ⟨-, hcnt, -, hpos⟩ := UInv_reach h
  have hlen : c.workers.length = t := by
    simpa [init, initFrom] using reach_length h
  have hfin : sumDone n c = t * n := by
    rw [terminal_sumDone hterm, hlen]
  refine ⟨hfin ▸ hcnt, ?_, ?_⟩
  · intro h1 h2
    exact hpos (by rw [hfin]; exact Nat.mul_pos h1 h2)
  · intro h0
    subst h0
    have hz : c.counter ≤ t * 0 := hfin ▸ hcnt
    simpa using hz

/-- Witness for C2 (amended) at `t = 2`, `n = 1` with the complete run
`[0, 0, 1, 1]`, which ends with counter 2. -/
theorem spec_c2_witness :
    (Cfg.mk 2 none [⟨0, Phase.atLoop⟩, ⟨0, Phase.atLoop⟩]).counter ≤ 2 * 1 ∧
    (1 ≤ 2 → 1 ≤ 1 →
      1 ≤ (Cfg.mk 2 none [⟨0, Phase.atLoop⟩, ⟨0, Phase.atLoop⟩]).counter) ∧
    (1 = 0 → (Cfg.mk 2 none [⟨0, Phase.atLoop⟩, ⟨0, Phase.atLoop⟩]).counter = 0) :=
  spec_c2_amended_bounds 2 1 _
    (runSched_reach (s := [0, 0, 1, 1]) (by decide)) (by decide)

/-- C3: in the MUTEX regime, at every reachable configuration at most one
worker is inside the increment body (two workers in the critical section
have equal indices); the lock is scoped to each individual increment — a
worker standing at the loop head never holds it — and it is released on
every exit path, so after both joins (a terminal configuration) the lock
is free. -/
theorem spec_c3_mutual_exclusion (t n : Nat) (c : Cfg)
    (h : Reach Regime.mutex (init t n) c) :
    (∀ (i j : Nat) (wi wj : Worker), c.workers[i]? = some wi →
        c.workers[j]? = some wj → inCritSec wi → inCritSec wj → i = j) ∧
    (∀ i w, c.workers[i]? = some w → w.phase = Phase.atLoop →
        c.owner ≠ some i) ∧
    (Terminal c → c.owner = none) := by
  obtain ⟨-, hown, hfull⟩ := MInv_reach h
  refine ⟨?_, ?_, ?_⟩
  · intro i j wi wj hwi hwj hci hcj
    have h1 := hown i wi hwi hci
    have h2 := hown j wj hwj hcj
    rw [h1] at h2
    exact Option.some.inj h2
  · intro i w hw hph hcon
    obtain ⟨w', hw', hc'⟩ := hfull i hcon
    rw [hw] at hw'
    injection hw' with hw'
    subst hw'
    rcases hc' with h' | h' <;> rw [hph] at h' <;> exact absurd h' (by simp)
  · intro hterm
    cases ho : c.owner with
    | none => rfl
    | some i =>
        obtain ⟨w, hw, hc⟩ := hfull i ho
        obtain ⟨-, hph⟩ := hterm w (List.getElem?_mem hw)
        rcases hc with h' | h' <;> rw [hph] at h' <;> exact absurd h' (by simp)

/-- Witness for C3 at the reachable mutex configuration after schedule
`[0]` from `init 2 1`: worker 0 holds the lock inside the critical
section, and worker 1, standing at the loop head, is not the owner. -/
theorem spec_c3_witness :
    (Cfg.mk 0 (some 0) [⟨1, Phase.inCrit⟩, ⟨1, Phase.atLoop⟩]).owner ≠ some 1 :=
  (spec_c3_mutual_exclusion 2 1 _
      (runSched_reach (s := [0]) (by decide))).2.1 1 ⟨1, Phase.atLoop⟩
    (by decide) rfl

/-- C4 counterexample: the claim says the counter is non-decreasing in
every regime.  In the NONE regime with `t = 2`, `n = 2`, after the
reachable prefix `[0, 1, 1, 1, 1]` (worker 0 read 0, worker 1 finished
both its iterations, counter = 2) the very next step of worker 0 writes
back its stale `0 + 1`, dropping the counter from 2 to 1. -/
theorem spec_c4_counterexample :
    runSched Regime.unsync (init 2 2) [0, 1, 1, 1, 1]
      = some (Cfg.mk 2 none [⟨2, Phase.hasRead 0⟩, ⟨0, Phase.atLoop⟩]) ∧
    Reach Regime.unsync (init 2 2)
      (Cfg.mk 2 none [⟨2, Phase.hasRead 0⟩, ⟨0, Phase.atLoop⟩]) ∧
    Step Regime.unsync (Cfg.mk 2 none [⟨2, Phase.hasRead 0⟩, ⟨0, Phase.atLoop⟩])
      (Cfg.mk 1 none [⟨1, Phase.atLoop⟩, ⟨0, Phase.atLoop⟩]) ∧
    (Cfg.mk 1 none [⟨1, Phase.atLoop⟩, ⟨0, Phase.atLoop⟩]).counter
      < (Cfg.mk 2 none [⟨2, Phase.hasRead 0⟩, ⟨0, Phase.atLoop⟩]).counter :=
  ⟨by decide, runSched_reach (s := [0, 1, 1, 1, 1]) (by decide), ⟨0, by decide⟩,
    by decide⟩

/-- C4 amended: at every reachable configuration of every regime the
counter never exceeds `t * n`; in the MUTEX and ATOMIC regimes every step
is additionally non-decreasing.  In the NONE regime a stale write-back can
decrease the counter mid-run (see `spec_c4_counterexample`), so
monotonicity holds only for the synchronized regimes. -/
theorem spec_c4_amended_bound_and_monotonicity (t n : Nat) (r : Regime)
    (c c' : Cfg) (h : Reach r (init t n) c) :
    c.counter ≤ t * n ∧
    (r ≠ Regime.unsync → Step r c c' → c.counter ≤ c'.counter) :=
  ⟨counter_le_reach r h, fun hr hs => step_mono hr hs⟩

/-- Witness for C4 (amended) at `r = ATOMIC`, `t = 2`, `n = 1`, applied at
the initial configuration and the configuration after worker 0's single
fetch-add. -/
theorem spec_c4_witness :
    (init 2 1).counter ≤ 2 * 1 ∧
    (Regime.atomic ≠ Regime.unsync →
      Step Regime.atomic (init 2 1)
        (Cfg.mk 1 none [⟨0, Phase.atLoop⟩, ⟨1, Phase.atLoop⟩]) →
      (init 2 1).counter
        ≤ (Cfg.mk 1 none [⟨0, Phase.atLoop⟩, ⟨1, Phase.atLoop⟩]).counter) :=
  spec_c4_amended_bound_and_monotonicity 2 1 Regime.atomic _ _
    Relation.ReflTransGen.refl

/-- C5: a single worker of any regime, run in isolation from counter value
`c0`, terminates (some schedule runs its loop to completion), and every
complete isolated run leaves the counter at exactly
`c0 + n` — the worker performs exactly its `n` increments
(`n = 1000000` in the source). -/
theorem spec_c5_worker_isolation (r : Regime) (c0 n : Nat) :
    (∃ c, Reach r (initFrom c0 1 n) c ∧ Terminal c ∧ c.counter = c0 + n) ∧
    (∀ c, Reach r (initFrom c0 1 n) c → Terminal c → c.counter = c0 + n) := by
  constructor
  · refine ⟨⟨c0 + n, none, [⟨0, Phase.atLoop⟩]⟩, ?_, solo_terminal _, rfl⟩
    have hinit : initFrom c0 1 n = ⟨c0, none, [⟨n, Phase.atLoop⟩]⟩ := by
      simp [initFrom]
    rw [hinit]
    exact runSched_reach (solo_run r n c0)
  · intro c h hterm
    cases r with
    | unsync =>
        obtain ⟨w, hws, -, hph⟩ := USInv_reach h
        have hmem : w ∈ c.workers := by rw [hws]; exact List.mem_singleton_self w
        obtain ⟨h0, hphase⟩ := hterm w hmem
        rcases hph with ⟨-, hcount⟩ | ⟨r', hphase', -, -, -⟩
        · rw [h0] at hcount
          simpa using hcount
        · rw [hphase] at hphase'
          exact absurd hphase' (by simp)
    | mutex => simpa using mutex_terminal_counter h hterm
    | atomic => simpa using atomic_terminal_counter h hterm

/-- Witness for C5: the race-variant worker run in isolation from counter
value 5 with `n = 2` iterations (schedule `[0, 0, 0, 0]`) ends at
`5 + 2`. -/
theorem spec_c5_witness :
    (Cfg.mk 7 none [⟨0, Phase.atLoop⟩]).counter = 5 + 2 :=
  (spec_c5_worker_isolation Regime.unsync 5 2).2 _
    (runSched_reach (s := [0, 0, 0, 0]) (by decide)) (by decide)

/-- C6 counterexample: the claim says every complete run of the
thread-creation demo prints exactly two lines, one containing identifier
1 and one containing identifier 2, each of the form
`"Thread <id> is running"`.  Because `printMessage` performs three
separate insertions on the shared `std::cout`, the complete run in which
the two threads alternate their insertions (and `main` then joins both)
leaves the character stream
`"Thread Thread 12 is running\n is running\n"`: still two terminated
lines, but `"Thread Thread 12 is running"` is not of the required form
and `" is running"` contains no identifier — the stream differs from both
orderly two-line outputs, so the claimed output shape is not guaranteed
by the code. -/
theorem spec_c6_counterexample :
    runSimple simpleInit
        [SAct.run1, SAct.run2, SAct.run1, SAct.run2, SAct.run1, SAct.run2,
          SAct.joinStep, SAct.joinStep]
      = some (SimpleCfg.mk 3 3 2
          ["Thread ", "Thread ", "1", "2", " is running\n", " is running\n"]) ∧
    SReach simpleInit (SimpleCfg.mk 3 3 2
        ["Thread ", "Thread ", "1", "2", " is running\n", " is running\n"]) ∧
    (SimpleCfg.mk 3 3 2
        ["Thread ", "Thread ", "1", "2", " is running\n", " is running\n"]).mainPC
      = 2 ∧
    String.join (SimpleCfg.mk 3 3 2
        ["Thread ", "Thread ", "1", "2", " is running\n", " is running\n"]).output
      = "Thread Thread 12 is running\n is running\n" ∧
    ¬ (String.join (SimpleCfg.mk 3 3 2
          ["Thread ", "Thread ", "1", "2", " is running\n", " is running\n"]).output
        = printMessage 1 ++ printMessage 2 ∨
      String.join (SimpleCfg.mk 3 3 2
          ["Thread ", "Thread ", "1", "2", " is running\n", " is running\n"]).output
        = printMessage 2 ++ printMessage 1) :=
  ⟨by decide,
    runSimple_sreach
      (s := [SAct.run1, SAct.run2, SAct.run1, SAct.run2, SAct.run1, SAct.run2,
        SAct.joinStep, SAct.joinStep]) (by decide),
    by decide, by decide, by decide⟩

/-- C6 amended: in the thread-creation demo, control proceeds past the
join point only once both spawned threads have terminated; every
configuration past the joins carries on stdout an order-preserving
interleaving of the two threads' three insertions — in particular exactly
two line terminators, i.e. exactly two output lines — and both orderly
outputs (`"Thread 1 is running"` then `"Thread 2 is running"`, and the
reverse) are reachable.  The shape "each line is `Thread <id> is
running`" is NOT guaranteed: the three insertions of one `printMessage`
may be interleaved with the other's, mangling the lines (see
`spec_c6_counterexample`). -/
theorem spec_c6_amended_join_and_stream (c : SimpleCfg)
    (h : SReach simpleInit c) (hpc : 2 ≤ c.mainPC) :
    (c.t1pc = 3 ∧ c.t2pc = 3) ∧
    Interleave (msgFrags 1) (msgFrags 2) c.output ∧
    (c.output.map newlineCount).sum = 2 ∧
    (∃ d, SReach simpleInit d ∧ 2 ≤ d.mainPC ∧
      String.join d.output = printMessage 1 ++ printMessage 2) ∧
    (∃ d, SReach simpleInit d ∧ 2 ≤ d.mainPC ∧
      String.join d.output = printMessage 2 ++ printMessage 1) := by
  obtain ⟨-, -, -, hg1, hg2, hint⟩ := SimpleInv_reach h
  have ht1 : c.t1pc = 3 := hg1 (by omega)
  have ht2 : c.t2pc = 3 := hg2 hpc
  rw [ht1, ht2] at hint
  have hfull : Interleave (msgFrags 1) (msgFrags 2) c.output := by
    simpa [msgFrags] using hint
  refine ⟨⟨ht1, ht2⟩, hfull, ?_, ?_, ?_⟩
  · rw [hfull.map_sum newlineCount]
    decide
  · refine ⟨SimpleCfg.mk 3 3 2
        ["Thread ", "1", " is running\n", "Thread ", "2", " is running\n"],
      runSimple_sreach
        (s := [SAct.run1, SAct.run1, SAct.run1, SAct.run2, SAct.run2,
          SAct.run2, SAct.joinStep, SAct.joinStep]) (by decide),
      by decide, by decide⟩
  · refine ⟨SimpleCfg.mk 3 3 2
        ["Thread ", "2", " is running\n", "Thread ", "1", " is running\n"],
      runSimple_sreach
        (s := [SAct.run2, SAct.run2, SAct.run2, SAct.run1, SAct.run1,
          SAct.run1, SAct.joinStep, SAct.joinStep]) (by decide),
      by decide, by decide⟩

/-- Witness for C6 (amended) at the complete orderly run in which thread 1
performs all three insertions, then thread 2, then `main` joins both: its
stream carries exactly two line terminators. -/
theorem spec_c6_witness :
    (((SimpleCfg.mk 3 3 2
        ["Thread ", "1", " is running\n", "Thread ", "2", " is running\n"]).output.map
      newlineCount).sum = 2) :=
  (spec_c6_amended_join_and_stream _
      (runSimple_sreach
        (s := [SAct.run1, SAct.run1, SAct.run1, SAct.run2, SAct.run2,
          SAct.run2, SAct.joinStep, SAct.joinStep]) (by decide))
      (by decide)).2.2.1

/-- C7: with `t = 2` threads and `n = 0` iterations, in every regime the
counter is 0 at every reachable configuration — in particular every
complete run reports exactly 0. -/
theorem spec_c7_zero_iterations (r : Regime) (c : Cfg)
    (h : Reach r (init 2 0) c) : c.counter = 0 := by
  have hle := counter_le_reach r h
  simpa using hle

/-- Witness for C7 at the initial configuration of the race variant. -/
theorem spec_c7_witness : (init 2 0).counter = 0 :=
  spec_c7_zero_iterations Regime.unsync _ Relation.ReflTransGen.refl

/-- C8: every completed run of a counter variant writes exactly one stdout
line, of the form `"Final counter value: <integer>"` where the integer is
the counter of the joined (terminal) configuration reached by the run, and
exits with code 0 (the only exit path). -/
theorem spec_c8_output_contract (r : Regime) (t n : Nat) (s : List Nat)
    (out : List String) (code : Nat)
    (h : programExec r t n s = some (out, code)) :
    code = 0 ∧ out.length = 1 ∧
    ∃ c, Reach r (init t n) c ∧ Terminal c ∧ out = [finalReport c.counter] := by
  obtain ⟨c, hreach, hterm, hp⟩ := programExec_some h
  injection hp with hp1 hp2
  exact ⟨hp2, by rw [hp1]; rfl, ⟨c, hreach, hterm, hp1⟩⟩

/-- Witness for C8: the complete atomic run of `t = 2`, `n = 1` under
schedule `[0, 1]` reports `"Final counter value: 2"` and exits 0. -/
theorem spec_c8_witness :
    (0 : Nat) = 0 ∧ (["Final counter value: 2"] : List String).length = 1 ∧
    ∃ c, Reach Regime.atomic (init 2 1) c ∧ Terminal c ∧
      (["Final counter value: 2"] : List String) = [finalReport c.counter] :=
  spec_c8_output_contract Regime.atomic 2 1 [0, 1] ["Final counter value: 2"] 0
    (by decide)

/-- C9: every run is a pure function of a freshly constructed
configuration — the second run observes the same initial state
(`init t n`, counter 0) as the first, regardless of what the first did —
and repeated MUTEX or ATOMIC runs with the same parameters produce
identical results (stdout and exit code) under any two schedules. -/
theorem spec_c9_idempotent_runs (r : Regime) (t n : Nat) (s₁ s₂ : List Nat)
    (a b : List String × Nat)
    (h₁ : programExec r t n s₁ = some a) (h₂ : programExec r t n s₂ = some b) :
    (init t n).counter = 0 ∧
    ((r = Regime.mutex ∨ r = Regime.atomic) → a = b) := by
  refine ⟨rfl, ?_⟩
  intro hr
  obtain ⟨c₁, hr₁, ht₁, rfl⟩ := programExec_some h₁
  obtain ⟨c₂, hr₂, ht₂, rfl⟩ := programExec_some h₂
  rcases hr with rfl | rfl
  · rw [mutex_terminal_counter hr₁ ht₁, mutex_terminal_counter hr₂ ht₂]
  · rw [atomic_terminal_counter hr₁ ht₁, atomic_terminal_counter hr₂ ht₂]

/-- Witness for C9: two complete mutex runs of `t = 2`, `n = 1` under the
two opposite schedules report the same line and exit code. -/
theorem spec_c9_witness :
    (init 2 1).counter = 0 ∧
    ((Regime.mutex = Regime.mutex ∨ Regime.mutex = Regime.atomic) →
      ((["Final counter value: 2"], 0) : List String × Nat)
        = (["Final counter value: 2"], 0)) :=
  spec_c9_idempotent_runs Regime.mutex 2 1 [0, 0, 0, 1, 1, 1] [1, 1, 1, 0, 0, 0]
    _ _ (by decide) (by decide)

/-- C10: with the reference constants `t = 2`, `n = 1000000`, the counter
never exceeds `2000000` at any reachable configuration of any regime, and
`2000000 < 2^31`, so every value the 32-bit signed `int` counter ever
holds is representable — no increment wraps or overflows. -/
theorem spec_c10_no_overflow (r : Regime) (c : Cfg)
    (h : Reach r (init threadCount iterations) c) :
    c.counter ≤ 2000000 ∧ c.counter < 2 ^ 31 := by
  have hle := counter_le_reach r h
  have h2 : threadCount * iterations = 2000000 := by
    norm_num [threadCount, iterations]
  rw [h2] at hle
  exact ⟨hle, by omega⟩

/-- Witness for C10 at the initial configuration of the mutex variant. -/
theorem spec_c10_witness :
    (init threadCount iterations).counter ≤ 2000000 ∧
    (init threadCount iterations).counter < 2 ^ 31 :=
  spec_c10_no_overflow Regime.mutex _ Relation.ReflTransGen.refl

end MTLF
